import Mathlib

/-!
# Verification of the stock-screener report & market-data extraction pipeline

A shallow embedding, in Lean 4, of the TypeScript core of the repository:

* `web-next/src/lib/parseReport.ts` — `parseTopPicksFromMarkdown`;
* `web-next/src/app/api/price/[code]/route.ts` — code validation, `dummySeries`
  and the CSV-cache parsing branch of `GET`;
* `web-next/src/app/api/predict/[code]/route.ts` — the linear-regression
  forecast (`GET`, lines 41-68) and `addDaysISO`;
* `web-next/src/app/api/report/dates/route.ts` — the report-date catalog.

Modelling conventions:

* JS `number` values are embedded as `ℚ` (the code only performs +, *, /,
  comparisons and 2-decimal rounding; IEEE-754 rounding error and overflow to
  `Infinity` are not modelled — values are kept exact).
* ISO calendar-date strings (`YYYY-MM-DD`) are embedded as `ℤ` day indices
  (days since an arbitrary epoch).  JS `Date` day arithmetic
  (`setDate`/`setUTCDate` followed by `toISOString().slice(0,10)`) is exactly
  addition on the day index under this bijection.
* The filesystem is passed explicitly as a function `String → Option String`
  (path ↦ file contents, `none` = file absent / unreadable), and "now" as an
  explicit day index, so every route handler is a pure function of its inputs.
* The regular expressions of the source are hand-compiled to character-list
  matchers implementing the exact JS semantics (greedy / lazy quantifier
  behaviour is resolved statically in comments at each matcher).
-/

namespace StockScreener

/-! ## JS character classes and elementary string operations -/

/-- The character class `\s` of JS regular expressions (WhiteSpace ∪
LineTerminator): space, tab, LF, VT, FF, CR, NBSP, BOM, the usual Unicode
space separators, and line/paragraph separators. -/
def jsWs (c : Char) : Bool :=
  c = ' ' || c = '\t' || c = '\n' || c.toNat = 0x0b || c.toNat = 0x0c || c = '\r' ||
  c.toNat = 0xa0 || c.toNat = 0xfeff || c.toNat = 0x1680 ||
  (0x2000 ≤ c.toNat && c.toNat ≤ 0x200a) ||
  c.toNat = 0x2028 || c.toNat = 0x2029 || c.toNat = 0x202f ||
  c.toNat = 0x205f || c.toNat = 0x3000

/-- JS `String.prototype.trim` on a character list: strip leading and
trailing `\s` characters. -/
def jsTrimList (l : List Char) : List Char :=
  ((l.dropWhile jsWs).reverse.dropWhile jsWs).reverse

/-- JS `String.prototype.trim`. -/
def jsTrim (s : String) : String := String.mk (jsTrimList s.toList)

/-- `md.split(/\r?\n/)`: split at each `\r\n` or bare `\n` (a lone `\r` does
not split).  `acc` holds the current fragment reversed. -/
def splitLinesAux : List Char → List Char → List (List Char)
  | [], acc => [acc.reverse]
  | '\r' :: '\n' :: rest, acc => acc.reverse :: splitLinesAux rest []
  | '\n' :: rest, acc => acc.reverse :: splitLinesAux rest []
  | c :: rest, acc => splitLinesAux rest (c :: acc)

/-- JS `s.split(/\r?\n/)`. -/
def jsSplitLines (s : String) : List String :=
  (splitLinesAux s.toList []).map String.mk

/-- JS `a.includes(b)` (substring containment) on character lists. -/
def hasSubList (p : List Char) : List Char → Bool
  | [] => p.isPrefixOf ([] : List Char)
  | c :: t => p.isPrefixOf (c :: t) || hasSubList p t

/-- JS `a.includes(b)`. -/
def hasSub (s sub : String) : Bool := hasSubList sub.toList s.toList

/-- JS `arr.slice(-n)`: the last `n` elements (all of them when
`length ≤ n`). -/
def takeRight (n : ℕ) (l : List α) : List α := l.drop (l.length - n)

/-! ## JS number parsing

The code converts strings to numbers with `Number(...)` and then checks
`Number.isFinite`.  We model "a finite number with value q" as `some q` and
NaN/±Infinity as `none`. -/

/-- Numeric value of a digit string (big-endian). -/
def natOfDigits (l : List Char) : ℕ :=
  l.foldl (fun n c => n * 10 + (c.toNat - '0'.toNat)) 0

/-- Value of a hexadecimal digit. -/
def hexDigitVal (c : Char) : ℕ :=
  if c.isDigit then c.toNat - '0'.toNat
  else if 'a' ≤ c && c ≤ 'f' then c.toNat - 'a'.toNat + 10
  else c.toNat - 'A'.toNat + 10

def isHexDigit (c : Char) : Bool :=
  c.isDigit || ('a' ≤ c && c ≤ 'f') || ('A' ≤ c && c ≤ 'F')

def natOfHexDigits (l : List Char) : ℕ :=
  l.foldl (fun n c => n * 16 + hexDigitVal c) 0

def isDigitOrDot (c : Char) : Bool := c.isDigit || c = '.'

/-- `Number(t)` for a token `t` drawn from the character class `[0-9.]+`
(as captured by the overview regex): finite iff it has at most one dot and
at least one digit (`Number(".")`, `Number("1.2.3")`, … are NaN). -/
def numTokVal (t : List Char) : Option ℚ :=
  if t.count '.' ≤ 1 && t.any Char.isDigit then
    let ip := t.takeWhile Char.isDigit
    let fp := (t.dropWhile Char.isDigit).drop 1
    some ((natOfDigits ip : ℚ) + (natOfDigits fp : ℚ) / (10 : ℚ) ^ fp.length)
  else none

/-- `Number(t)` for a string already filtered to `[0-9.]` characters
(`val.replace(/[^0-9.]/g, "")`): as `numTokVal`, except that the empty
string yields `0` (JS `Number("") = 0`). -/
def digitsDotsVal (t : List Char) : Option ℚ :=
  if t.isEmpty then some 0 else numTokVal t

/-- `q * 10 ^ e` for a signed decimal exponent. -/
def mulPow10 (q : ℚ) (e : ℤ) : ℚ :=
  if 0 ≤ e then q * (10 : ℚ) ^ e.toNat else q / (10 : ℚ) ^ (-e).toNat

/-- The StrDecimalLiteral grammar of JS `Number`:
`digits [. digits] | . digits`, with an optional `e`/`E` exponent. -/
def parseDecLit (cs : List Char) : Option ℚ :=
  let ip := cs.takeWhile Char.isDigit
  let r1 := cs.dropWhile Char.isDigit
  let hasDot := r1.head? = some '.'
  let fp := (if hasDot then r1.drop 1 else []).takeWhile Char.isDigit
  let r2 := if hasDot then (r1.drop 1).dropWhile Char.isDigit else r1
  if ip.isEmpty && fp.isEmpty then none
  else
    let mant : ℚ := (natOfDigits ip : ℚ) + (natOfDigits fp : ℚ) / (10 : ℚ) ^ fp.length
    match r2 with
    | [] => some mant
    | e :: r3 =>
      if e = 'e' || e = 'E' then
        let (sgn, r4) : ℤ × List Char :=
          match r3 with
          | '+' :: r4 => (1, r4)
          | '-' :: r4 => (-1, r4)
          | r4 => (1, r4)
        if r4.isEmpty || ¬ r4.all Char.isDigit then none
        else some (mulPow10 mant (sgn * natOfDigits r4))
      else none

/-- JS `Number(s)`, restricted to finite results: `some q` when `Number(s)`
is a finite number of value `q`, `none` when it is `NaN` or `±Infinity`.
Covers the whitespace trim, the empty string (`0`), signed decimal literals
with exponents, `Infinity`, and the unsigned `0x`/`0o`/`0b` radix prefixes.
(Overflow of huge exponents to `Infinity` is not modelled.) -/
def jsFiniteNumber (s : String) : Option ℚ :=
  let t := jsTrimList s.toList
  if t.isEmpty then some 0
  else
    match t with
    | '+' :: r => if r = "Infinity".toList then none else parseDecLit r
    | '-' :: r => if r = "Infinity".toList then none else (parseDecLit r).map Neg.neg
    | '0' :: 'x' :: r =>
      if ¬ r.isEmpty && r.all isHexDigit then some (natOfHexDigits r) else none
    | '0' :: 'X' :: r =>
      if ¬ r.isEmpty && r.all isHexDigit then some (natOfHexDigits r) else none
    | '0' :: 'o' :: r =>
      if ¬ r.isEmpty && r.all (fun c => '0' ≤ c && c ≤ '7') then
        some (r.foldl (fun n c => n * 8 + (c.toNat - '0'.toNat)) 0 : ℕ) else none
    | '0' :: 'O' :: r =>
      if ¬ r.isEmpty && r.all (fun c => '0' ≤ c && c ≤ '7') then
        some (r.foldl (fun n c => n * 8 + (c.toNat - '0'.toNat)) 0 : ℕ) else none
    | '0' :: 'b' :: r =>
      if ¬ r.isEmpty && r.all (fun c => c = '0' || c = '1') then
        some (r.foldl (fun n c => n * 2 + (c.toNat - '0'.toNat)) 0 : ℕ) else none
    | '0' :: 'B' :: r =>
      if ¬ r.isEmpty && r.all (fun c => c = '0' || c = '1') then
        some (r.foldl (fun n c => n * 2 + (c.toNat - '0'.toNat)) 0 : ℕ) else none
    | _ =>
      if t = "Infinity".toList then none else parseDecLit t

/-- `Number(pred.toFixed(2))`: rounding to two decimal places (nearest,
ties towards `+∞`, as ECMA `toFixed` picks the larger candidate). -/
def round2 (q : ℚ) : ℚ := ((round (q * 100) : ℤ) : ℚ) / 100

end StockScreener

namespace StockScreener

/-! ## `parseReport.ts` — `parseTopPicksFromMarkdown`

The parser works line by line.  Its three regular expressions are
hand-compiled below; each matcher documents how the greedy/lazy quantifier
interactions of the original pattern are resolved. -/

/-- One ranked candidate (the `Pick` type of `parseReport.ts`).  `rank` is
always set by the parser (both the overview pass and the detail pass store
one), so it is not optional here; `Number` of a digit string is a
non-negative integer, hence `ℕ`. -/
structure Pick where
  rank : ℕ
  code : String
  name : Option String
  entry : Option ℚ
  stop : Option ℚ
  takeProfit : Option ℚ
  score : Option ℚ
  close : Option ℚ
  reasons : Option (List String)
deriving DecidableEq

/-- Literal chunk of a pattern: `some rest` iff `p` is a prefix of `l`. -/
def chompLit (p : List Char) (l : List Char) : Option (List Char) :=
  if p.isPrefixOf l then some (l.drop p.length) else none

/-- `\s+` followed by a non-whitespace continuation: the maximal whitespace
run, which must be nonempty. -/
def chompWs1 (l : List Char) : Option (List Char) :=
  match l with
  | c :: r => if jsWs c then some (r.dropWhile jsWs) else none
  | [] => none

/-- `[0-9.]+` followed by `\*\*`: the maximal run over the class, which must
be nonempty (backtracking cannot help, since a shorter run is still followed
by a class character, never by `*`). -/
def chompNumTok (l : List Char) : Option (List Char × List Char) :=
  let t := l.takeWhile isDigitOrDot
  if t.isEmpty then none else some (t, l.dropWhile isDigitOrDot)

/-- The four numeric captures of an overview line. -/
structure OvTail where
  entryTok : List Char
  stopTok : List Char
  tpTok : List Char
  scoreTok : List Char
deriving DecidableEq

/-- One labelled segment of the overview tail: a literal label, then
`\s+`, `\*\*`, a `[0-9.]+` token, and `\*\*`; returns the token and the
remaining input. -/
def chompSegment (lbl : List Char) (l : List Char) : Option (List Char × List Char) :=
  match chompLit lbl l with
  | none => none
  | some a =>
    match chompWs1 a with
    | none => none
    | some b =>
      match chompLit "**".toList b with
      | none => none
      | some c =>
        match chompNumTok c with
        | none => none
        | some (t, d) =>
          match chompLit "**".toList d with
          | none => none
          | some e => some (t, e)

/-- The fixed tail of the overview pattern, from `｜Entry` on:
`｜Entry\s+\*\*([0-9.]+)\*\*｜Stop\s+\*\*([0-9.]+)\*\*｜TP\s+\*\*([0-9.]+)\*\*｜Score\s+\*\*([0-9.]+)\*\*`
(no end anchor: trailing characters are allowed). -/
def matchTail (l : List Char) : Option OvTail :=
  match chompSegment "｜Entry".toList l with
  | none => none
  | some (e, l1) =>
    match chompSegment "｜Stop".toList l1 with
    | none => none
    | some (s, l2) =>
      match chompSegment "｜TP".toList l2 with
      | none => none
      | some (t, l3) =>
        match chompSegment "｜Score".toList l3 with
        | none => none
        | some (sc, _) => some ⟨e, s, t, sc⟩

/-- The character class of the JS `.` metacharacter (no `s` flag): any
character except a LineTerminator (`\n`, `\r`, U+2028, U+2029). -/
def jsDot (c : Char) : Bool :=
  ¬ (c = '\n' || c = '\r' || c.toNat = 0x2028 || c.toNat = 0x2029)

/-- `l` consists of `\s` characters only. -/
def allWs (l : List Char) : Bool := l.all jsWs

/-- `(.+)\s*$` at the current position: the greedy `(.+)` is the maximal
run of `.`-matching characters; a shorter capture leaves that same
non-whitespace tail, so the pattern matches iff the run is nonempty and
everything after it is whitespace, and then the capture is the whole
run. -/
def dotCapture (l : List Char) : Option (List Char) :=
  let run := l.takeWhile jsDot
  if ¬ run.isEmpty && allWs (l.drop run.length) then some run else none

/-- `(.+)$` at the current position (no `\s*` buffer): the greedy run of
`.`-matching characters must reach the end of the input. -/
def dotCaptureEnd (l : List Char) : Option (List Char) :=
  let run := l.takeWhile jsDot
  if ¬ run.isEmpty && (l.drop run.length).isEmpty then some run else none

/-- Backtracking of `\s+` before `(.+)\s*$`: the `\s+` run is tried from
the greedy maximum (`k` characters) down to one. -/
def wsCaptureAux (cont : List Char → Option (List Char)) :
    ℕ → List Char → Option (List Char)
  | 0, _ => none
  | k + 1, l =>
    match cont (l.drop (k + 1)) with
    | some c => some c
    | none => wsCaptureAux cont k l

/-- `\s+(.+)\s*$`: the returned value is capture group 1 under JS
leftmost-greedy backtracking. -/
def wsCapture (l : List Char) : Option (List Char) :=
  wsCaptureAux dotCapture (l.takeWhile jsWs).length l

/-- `\s+(.+)$`: as `wsCapture`, without the trailing whitespace buffer. -/
def wsCaptureEnd (l : List Char) : Option (List Char) :=
  wsCaptureAux dotCaptureEnd (l.takeWhile jsWs).length l

/-- The lazy group `(.*?)` before the tail: the shortest prefix of
`.`-matching characters after which the tail matches; a line terminator
stops the scan (JS `.` does not match it), and the preceding greedy `\s*`
cannot be forced to give characters back, because the tail starts with
`｜`, which is not whitespace, and every position inside the whitespace
run fails the tail too. -/
def scanName (l : List Char) : Option (List Char × OvTail) :=
  match matchTail l with
  | some t => some ([], t)
  | none =>
    match l with
    | [] => none
    | c :: r =>
      if jsDot c then (scanName r).map fun p => (c :: p.1, p.2) else none

/-- A parsed overview line (capture groups 1-7 of the overview pattern,
with the `Number.isFinite` post-processing of the parser applied). -/
structure OvRec where
  rank : ℕ
  code : String
  name : Option String
  entry : Option ℚ
  stop : Option ℚ
  takeProfit : Option ℚ
  score : Option ℚ
deriving DecidableEq

/-- The overview pattern
`^(\d+)\.\s+\*\*(\d{4})\*\*\s*(.*?)｜Entry…` (see `matchTail`), together
with the field post-processing of pass 1: the name is trimmed and an empty
name becomes `none`; each numeric token is kept only if `Number` of it is
finite. -/
def matchOverview (line : String) : Option OvRec :=
  let cs := line.toList
  let ds := cs.takeWhile Char.isDigit
  if ds.isEmpty then none
  else
    match chompLit ['.'] (cs.dropWhile Char.isDigit) with
    | none => none
    | some r1 =>
      match chompWs1 r1 with
      | none => none
      | some r2 =>
        match chompLit "**".toList r2 with
        | none => none
        | some r3 =>
          match r3 with
          | a :: b :: c :: d :: r4 =>
            if a.isDigit && b.isDigit && c.isDigit && d.isDigit then
              match chompLit "**".toList r4 with
              | none => none
              | some r5 =>
                match scanName (r5.dropWhile jsWs) with
                | none => none
                | some (nm, t) =>
                  let nmStr := jsTrimList nm
                  some { rank := natOfDigits ds
                       , code := String.mk [a, b, c, d]
                       , name := if nmStr.isEmpty then none else some (String.mk nmStr)
                       , entry := numTokVal t.entryTok
                       , stop := numTokVal t.stopTok
                       , takeProfit := numTokVal t.tpTok
                       , score := numTokVal t.scoreTok }
            else none
          | _ => none

/-- A parsed detail-section heading, with the name already trimmed (the
parser only ever uses `h[3].trim()`). -/
structure HeadRec where
  rank : ℕ
  code : String
  name : String
deriving DecidableEq

/-- The heading pattern `^###\s+(\d+)\.\s+(\d{4})\s+—\s+(.+)\s*$`.
The name part `\s+(.+)\s*$` is compiled by `wsCapture`, with `.`
excluding line terminators. -/
def matchHeading (line : String) : Option HeadRec :=
  match chompLit "###".toList line.toList with
  | none => none
  | some r0 =>
    match chompWs1 r0 with
    | none => none
    | some r1 =>
      let ds := r1.takeWhile Char.isDigit
      if ds.isEmpty then none
      else
        match chompLit ['.'] (r1.dropWhile Char.isDigit) with
        | none => none
        | some r2 =>
          match chompWs1 r2 with
          | none => none
          | some r3 =>
            match r3 with
            | a :: b :: c :: d :: r4 =>
              if a.isDigit && b.isDigit && c.isDigit && d.isDigit then
                match chompWs1 r4 with
                | none => none
                | some r5 =>
                  match chompLit ['—'] r5 with
                  | none => none
                  | some r6 =>
                    match wsCapture r6 with
                    | none => none
                    | some cap =>
                      some ⟨natOfDigits ds, String.mk [a, b, c, d],
                            String.mk (jsTrimList cap)⟩
              else none
            | _ => none

/-- The bullet pattern `^\s*\-\s+(.+)$`, returning `b[1].trim()`.  The
leading greedy `\s*` is deterministic (a shorter run leaves a whitespace
character where `-` is required); the rest is `wsCaptureEnd`, with `.`
excluding line terminators and no whitespace buffer before `$`. -/
def matchBullet (line : String) : Option String :=
  match line.toList.dropWhile jsWs with
  | '-' :: r1 =>
    match wsCaptureEnd r1 with
    | none => none
    | some cap => some (String.mk (jsTrimList cap))
  | _ => none

/-- The technical-rationale keyword test applied to the whole line:
`line.includes("动量") || line.includes("EMA") || line.includes("波动率")`. -/
def keywordLine (line : String) : Bool :=
  hasSub line "动量" || hasSub line "EMA" || hasSub line "波动率"

/-- The table-row pattern `^\|\s*([^|]+?)\s*\|\s*([^|]+?)\s*\|`, returning
the two (trimmed) cells.  The lazy `([^|]+?)` framed by greedy `\s*` makes
each capture the fully trimmed cell content, except that a whitespace-only
cell captures a single whitespace character; since the parser immediately
trims both captures, the effective result is the trimmed cell, which must
be a nonempty character sequence between consecutive `|`s. -/
def matchTableRow (line : String) : Option (String × String) :=
  match line.toList with
  | '|' :: r0 =>
    let cellA := r0.takeWhile (fun c => c ≠ '|')
    match r0.dropWhile (fun c => c ≠ '|') with
    | '|' :: r2 =>
      if cellA.isEmpty then none
      else
        let cellB := r2.takeWhile (fun c => c ≠ '|')
        match r2.dropWhile (fun c => c ≠ '|') with
        | '|' :: _ =>
          if cellB.isEmpty then none
          else some (String.mk (jsTrimList cellA), String.mk (jsTrimList cellB))
        | _ => none
    | _ => none
  | _ => none

/-! ### The `byCode` record

A JS plain object with string keys, modelled as an association list in
property-creation order; assigning to an existing key keeps its position.
`Object.values` enumeration order is handled in `objectValues`. -/

/-- `byCode` with its insertion order. -/
abbrev PickMap := List (String × Pick)

/-- `byCode[k]` (first — and, by construction, only — binding of `k`). -/
def mapFind : PickMap → String → Option Pick
  | [], _ => none
  | (k1, p) :: rest, k => if k1 = k then some p else mapFind rest k

/-- `byCode[k] = v`: replace in place, or append a new binding. -/
def upsert : PickMap → String → Pick → PickMap
  | [], k, v => [(k, v)]
  | (k1, p) :: rest, k, v =>
    if k1 = k then (k, v) :: rest else (k1, p) :: upsert rest k v

/-- In-place mutation of the object bound to `k` (the detail pass mutates
the current pick through the `cur` reference). -/
def updateAt : PickMap → String → (Pick → Pick) → PickMap
  | [], _, _ => []
  | (k1, p) :: rest, k, f =>
    (if k1 = k then (k1, f p) else (k1, p)) :: updateAt rest k f

/-- The pick built from an overview line (pass 1). -/
def ovPick (o : OvRec) : Pick :=
  ⟨o.rank, o.code, o.name, o.entry, o.stop, o.takeProfit, o.score, none, none⟩

/-- One line of pass 1. -/
def pass1step (m : PickMap) (line : String) : PickMap :=
  match matchOverview line with
  | none => m
  | some o => upsert m o.code (ovPick o)

/-- Pass 1: every overview match stores a whole fresh record under its code
(last write wins for duplicate codes). -/
def pass1 (ls : List String) : PickMap :=
  ls.foldl pass1step []

/-- The table-row step of the detail pass: a `最新收盘价` row stores the
numeric value of the right cell stripped to `[0-9.]` characters, when that
value is finite. -/
def applyRow (line : String) (m : PickMap) (c : String) : PickMap :=
  match matchTableRow line with
  | none => m
  | some (key, val) =>
    if hasSub key "最新收盘价" then
      match digitsDotsVal (val.toList.filter isDigitOrDot) with
      | some q => updateAt m c (fun p => { p with close := some q })
      | none => m
    else m

/-- The bullet step of the detail pass: a bullet whose line contains a
keyword is appended (trimmed) to the current pick's `reasons`
(`cur.reasons = cur.reasons ?? []` then `push`). -/
def applyBullet (line : String) (m : PickMap) (c : String) : PickMap :=
  match matchBullet line with
  | some b =>
    if keywordLine line then
      updateAt m c (fun p => { p with reasons := some (p.reasons.getD [] ++ [b]) })
    else m
  | none => m

/-- `cur = byCode[code] ?? {rank, code, name}` then
`cur.rank = cur.rank ?? …` (a no-op: rank is always present) and
`cur.name = cur.name ?? h[3].trim()`. -/
def headPick (h : HeadRec) (m : PickMap) : Pick :=
  match mapFind m h.code with
  | some p => { p with name := some (p.name.getD h.name) }
  | none => ⟨h.rank, h.code, some h.name, none, none, none, none, none, none⟩

/-- One line of the detail pass.  State: the map and the current section's
code (`cur`).  A heading switches sections (and seeds a pick if its code is
new); any other line is ignored without a current section, and otherwise
feeds the table-row step then the bullet step (their patterns are mutually
exclusive, but the source applies both tests in this order). -/
def pass2step (st : PickMap × Option String) (line : String) :
    PickMap × Option String :=
  match matchHeading line with
  | some h => (upsert st.1 h.code (headPick h st.1), some h.code)
  | none =>
    match st.2 with
    | none => st
    | some c => (applyBullet line (applyRow line st.1 c) c, some c)

/-- Pass 2 over all lines. -/
def pass2 (m : PickMap) (ls : List String) : PickMap :=
  (ls.foldl pass2step (m, none)).1

/-- Whether a JS property key is an array index (canonical numeric string
below `2^32 - 1`).  For the 4-digit codes stored here: exactly the codes
without a leading zero. -/
def isArrayIndexKey (s : String) : Bool :=
  ¬ s.toList.isEmpty && s.toList.all Char.isDigit &&
  (s = "0" || s.toList.head? ≠ some '0') &&
  natOfDigits s.toList < 2 ^ 32 - 1

/-- Sort key for array-index properties. -/
def keyNum (e : String × Pick) : ℕ := natOfDigits e.1.toList

/-- Numeric-key comparison used for the enumeration order of array-index
properties. -/
def keyLe (a b : String × Pick) : Prop := keyNum a ≤ keyNum b

instance : DecidableRel keyLe := fun a b => Nat.decLe (keyNum a) (keyNum b)

instance : IsTotal (String × Pick) keyLe := ⟨fun a b => Nat.le_total (keyNum a) (keyNum b)⟩

instance : IsTrans (String × Pick) keyLe := ⟨fun _ _ _ => Nat.le_trans⟩

/-- `Object.values(byCode)`: array-index keys first, in ascending numeric
order, then the remaining string keys in property-creation order. -/
def objectValues (m : PickMap) : List Pick :=
  ((m.filter (fun e => isArrayIndexKey e.1)).insertionSort keyLe ++
    m.filter (fun e => ! isArrayIndexKey e.1)).map Prod.snd

/-- The final filter `(p) => p.rank && p.code`: a truthy rank (`≠ 0`) and a
truthy code (`≠ ""`). -/
def pickKeep (p : Pick) : Bool := p.rank ≠ 0 && p.code ≠ ""

/-- The comparator `(a, b) => (a.rank ?? 999) - (b.rank ?? 999)`: ascending
by rank (rank is always present here). -/
def rankLe (a b : Pick) : Prop := a.rank ≤ b.rank

instance : DecidableRel rankLe := fun a b => Nat.decLe a.rank b.rank

instance : IsTotal Pick rankLe := ⟨fun a b => Nat.le_total a.rank b.rank⟩

instance : IsTrans Pick rankLe := ⟨fun _ _ _ => Nat.le_trans⟩

/-- `parseTopPicksFromMarkdown`: split into lines, run the two passes,
filter to picks with rank and code, sort ascending by rank (JS `sort` is
stable; so is insertion sort, and a stable sort by a key is unique), and
truncate to the first 10. -/
def parseTopPicksFromMarkdown (md : String) : List Pick :=
  let ls := jsSplitLines md
  let m := pass2 (pass1 ls) ls
  (((objectValues m).filter pickKeep).insertionSort rankLe).take 10

end StockScreener

namespace StockScreener

/-! ## `price/[code]/route.ts` — PriceSeriesResolver -/

/-- A date value: synthetic rows carry a computed calendar day (`ℤ` day
index, see the file header), cached rows carry the raw date string of the
CSV. -/
inductive DateV
  | num (day : ℤ)
  | str (s : String)
deriving DecidableEq

/-- One OHLCV bar. -/
structure Candle where
  date : DateV
  open_ : ℚ
  high : ℚ
  low : ℚ
  close : ℚ
  volume : ℚ
deriving DecidableEq

/-- The validation `/^\d{4}$/.test(code)`: exactly four decimal digits. -/
def valid4 (code : String) : Bool :=
  code.toList.length = 4 && code.toList.all Char.isDigit

/-- `data_cache/<code>.jp.csv` (relative to the project root). -/
def cachePathForCode (code : String) : String :=
  "data_cache/" ++ code ++ ".jp.csv"

/-- The loop body of `dummySeries`, unrolled by recursion on the remaining
iteration count: with fuel `n + 1` the current index is `i = n`, so fuel
221 runs `i = 220, 219, …, 0` exactly as `for (let i = 220; i >= 0; i--)`.
Each iteration opens at the previous close and walks the close by the
factor `(1 + 0.0005) * (1 + ((i % 10) - 5) * 0.001)`. -/
def dummyLoop (today : ℤ) : ℕ → ℚ → List Candle
  | 0, _ => []
  | n + 1, close =>
    let o := close
    let c := close * (1 + 5 / 10000) * (1 + (((n % 10 : ℕ) : ℚ) - 5) * (1 / 1000))
    { date := .num (today - (n : ℤ))
      open_ := o
      high := max o c * (101 / 100)
      low := min o c * (99 / 100)
      close := c
      volume := 1500000 } :: dummyLoop today n c

/-- `dummySeries(code)`: 221 synthetic rows ending at the current date,
seeded with `1200 + (Number(code) % 500)`. -/
def dummySeries (code : String) (today : ℤ) : List Candle :=
  dummyLoop today 221 (1200 + ((natOfDigits code.toList % 500 : ℕ) : ℚ))

/-- One CSV data row of the cache-parsing loop: split on commas; skip when
fewer than 6 fields, when the date is empty, or when any of
open/high/low/close/volume is not a finite number. -/
def parseRowLine (line : String) : Option Candle :=
  let parts := line.splitOn ","
  if parts.length < 6 then none
  else if parts.getD 0 "" = "" then none
  else
    match jsFiniteNumber (parts.getD 1 ""), jsFiniteNumber (parts.getD 2 ""),
          jsFiniteNumber (parts.getD 3 ""), jsFiniteNumber (parts.getD 4 ""),
          jsFiniteNumber (parts.getD 5 "") with
    | some o, some h, some l, some c, some v =>
      some ⟨.str (parts.getD 0 ""), o, h, l, c, v⟩
    | _, _, _, _, _ => none

/-- The cache branch: `text.trim().split(/\r?\n/)`, rows from index 1 (the
header row is skipped), malformed rows dropped, capped to the most recent
200 by `out.slice(-200)`. -/
def cacheSeries (text : String) : List Candle :=
  takeRight 200 (((jsSplitLines (jsTrim text)).drop 1).filterMap parseRowLine)

/-- The JSON responses of the price route: the 400 invalid-code response,
or an `ok` payload with the series, the `dummy` flag (absent — i.e. falsy —
for the cache branch) and the `source` provenance tag. -/
inductive PriceResponse
  | invalid
  | ok (code : String) (series : List Candle) (dummy : Bool) (source : String)
deriving DecidableEq

/-- `GET` of `price/[code]/route.ts` as a pure function of the request
code, the filesystem, and the current day. -/
def priceGET (code : String) (fs : String → Option String) (today : ℤ) :
    PriceResponse :=
  if ¬ valid4 code then .invalid
  else
    match fs (cachePathForCode code) with
    | none => .ok code (dummySeries code today) true "dummy"
    | some text => .ok code (cacheSeries text) false "cache"

/-! ## `predict/[code]/route.ts` — ForecastGenerator -/

/-- The `Bar` type of the predict route (`{date, close}`); dates as `ℤ`
day indices. -/
structure Bar where
  date : ℤ
  close : ℚ
deriving DecidableEq

/-- One forecast point. -/
structure FPoint where
  date : ℤ
  close : ℚ
deriving DecidableEq

/-- `addDaysISO`: advancing an ISO date by `k` calendar days is adding `k`
to its day index. -/
def addDaysISO (d : ℤ) (k : ℕ) : ℤ := d + k

/-- Lines 46-68 of the predict route: ordinary least squares on the last
`N = min(60, closes.length)` closes against the 0-based window index, then
ten fitted values at indices `N-1+k` (`k = 1..10`), each rounded to two
decimals and dated `k` calendar days after the last known date.  (The
`filter(Number.isFinite)` on the closes is the identity here: every
embedded close is a finite value.) -/
def forecastOf (series : List Bar) : List FPoint :=
  let closes := series.map Bar.close
  let N := min 60 closes.length
  let y := closes.drop (closes.length - N)
  let xMean : ℚ := ((N : ℚ) - 1) / 2
  let yMean : ℚ := y.sum / (N : ℚ)
  let num := ((List.range N).map
    (fun (i : ℕ) => ((i : ℚ) - xMean) * (y.getD i 0 - yMean))).sum
  let den := ((List.range N).map
    (fun (i : ℕ) => ((i : ℚ) - xMean) * ((i : ℚ) - xMean))).sum
  let slope := if den = 0 then 0 else num / den
  let intercept := yMean - slope * xMean
  let lastDate := ((series.getLast?).map Bar.date).getD 0
  (List.range 10).map (fun k =>
    { date := addDaysISO lastDate (k + 1)
      close := round2 (intercept + slope * ((N : ℚ) - 1 + ((k : ℚ) + 1))) })

/-- The JSON responses of the predict route. -/
inductive PredictResponse
  | invalid
  | upstreamError (status : ℕ)
  | ok (code : String) (forecast : List FPoint) (method : Option String)
deriving DecidableEq

/-- The post-fetch part of the predict route (from line 41): fewer than 30
closes is a quiet success with an empty forecast (and no `method` field);
otherwise the regression forecast with method
`"linear-regression-close"`. -/
def predictFromSeries (code : String) (series : List Bar) : PredictResponse :=
  if (series.map Bar.close).length < 30 then .ok code [] none
  else .ok code (forecastOf series) (some "linear-regression-close")

/-- The whole `GET` of the predict route, with the upstream fetch-and-parse
result supplied as an input (`Except status series`). -/
def predictGET (code : String) (fetched : Except ℕ (List Bar)) :
    PredictResponse :=
  if ¬ valid4 code then .invalid
  else
    match fetched with
    | .error status => .upstreamError status
    | .ok series => predictFromSeries code series

/-! ## `report/dates/route.ts` — ReportCatalog -/

/-- The filename pattern `^nikkei-report-(\d{4}-\d{2}-\d{2})\.html$`
(fully anchored): returns the captured date for a matching filename. -/
def matchReportName (f : String) : Option String :=
  let cs := f.toList
  if cs.length = 29 &&
     "nikkei-report-".toList.isPrefixOf cs &&
     ".html".toList.isPrefixOf (cs.drop 24) &&
     ((cs.drop 14).take 4).all Char.isDigit &&
     cs.getD 18 ' ' = '-' &&
     ((cs.drop 19).take 2).all Char.isDigit &&
     cs.getD 21 ' ' = '-' &&
     ((cs.drop 22).take 2).all Char.isDigit then
    some (String.mk ((cs.drop 14).take 10))
  else none

/-- The dates route always answers `ok` with a list of dates. -/
inductive DatesResponse
  | ok (dates : List String)
deriving DecidableEq

/-- `GET` of the dates route as a function of the directory listing
(`none` = `readdirSync` threw: unreadable storage).  Matching names are
mapped to their dates, sorted with the default (lexicographic) JS `sort`,
and reversed, i.e. most recent first; any failure yields the empty list. -/
def datesGET (listing : Option (List String)) : DatesResponse :=
  match listing with
  | none => .ok []
  | some files =>
    .ok (((files.filterMap matchReportName).insertionSort
            (fun a b => a ≤ b)).reverse)

end StockScreener

namespace StockScreener

/-! ## Spec-side predicates used in theorem statements -/

/-- A well-formed synthetic candle:
`low < min(open, close) ≤ max(open, close) < high` and the fixed volume. -/
def candleWellFormed (c : Candle) : Bool :=
  c.low < min c.open_ c.close && min c.open_ c.close ≤ max c.open_ c.close &&
  max c.open_ c.close < c.high && c.volume = 1500000

/-- A malformed CSV row in the sense of the spec: fewer than 6 fields,
a missing date, or one of open/high/low/close/volume not a finite
number. -/
def malformedRow (line : String) : Prop :=
  (line.splitOn ",").length < 6 ∨
  (line.splitOn ",").getD 0 "" = "" ∨
  jsFiniteNumber ((line.splitOn ",").getD 1 "") = none ∨
  jsFiniteNumber ((line.splitOn ",").getD 2 "") = none ∨
  jsFiniteNumber ((line.splitOn ",").getD 3 "") = none ∨
  jsFiniteNumber ((line.splitOn ",").getD 4 "") = none ∨
  jsFiniteNumber ((line.splitOn ",").getD 5 "") = none

/-! ### Reference definitions for the OLS forecast, following the spec's
wording ("slope = Σ((x-meanX)(y-meanY)) / Σ((x-meanX)²)", window of the
last `min(60, available)` closes, zero slope on a zero denominator).
These are the spec side of the comparison with `forecastOf`. -/

/-- The regression window size `N = min(60, available)`. -/
def olsN (closes : List ℚ) : ℕ := min 60 closes.length

/-- The last `N` closes. -/
def olsY (closes : List ℚ) : List ℚ := closes.drop (closes.length - olsN closes)

/-- Mean of the 0-based window indices. -/
def olsXMean (closes : List ℚ) : ℚ := ((olsN closes : ℚ) - 1) / 2

/-- Mean of the windowed closes. -/
def olsYMean (closes : List ℚ) : ℚ :=
  (∑ i ∈ Finset.range (olsN closes), (olsY closes).getD i 0) / (olsN closes : ℚ)

/-- `Σ((x-meanX)(y-meanY))`. -/
def olsNum (closes : List ℚ) : ℚ :=
  ∑ i ∈ Finset.range (olsN closes),
    ((i : ℚ) - olsXMean closes) * ((olsY closes).getD i 0 - olsYMean closes)

/-- `Σ((x-meanX)²)`. -/
def olsDen (closes : List ℚ) : ℚ :=
  ∑ i ∈ Finset.range (olsN closes), ((i : ℚ) - olsXMean closes) ^ 2

/-- The OLS slope, zero when the denominator is zero. -/
def olsSlope (closes : List ℚ) : ℚ :=
  if olsDen closes = 0 then 0 else olsNum closes / olsDen closes

/-- The OLS intercept. -/
def olsIntercept (closes : List ℚ) : ℚ :=
  olsYMean closes - olsSlope closes * olsXMean closes

/-- The last known date of a series (the code indexes
`series[series.length - 1]`; on the nonempty series of the claims this is
the last bar's date). -/
def lastDateOf (series : List Bar) : ℤ := ((series.getLast?).map Bar.date).getD 0

/-! ## Lemmas about the synthetic fallback series -/

theorem dummyLoop_length (today : ℤ) :
    ∀ (n : ℕ) (c : ℚ), (dummyLoop today n c).length = n := by
  intro n
  induction n with
  | zero => intro c; rfl
  | succ n ih => intro c; simp [dummyLoop, ih]

theorem dummyLoop_dates (today : ℤ) :
    ∀ (n : ℕ) (c : ℚ),
      (dummyLoop today n c).map Candle.date =
        (List.range n).map (fun (k : ℕ) => DateV.num (today - n + 1 + (k : ℤ))) := by
  intro n
  induction n with
  | zero => intro c; rfl
  | succ n ih =>
    intro c
    rw [List.range_succ_eq_map]
    rw [dummyLoop]
    simp only [List.map_cons, List.map_map]
    congr 1
    · simp only [DateV.num.injEq]
      push_cast
      ring
    · rw [ih]
      apply List.map_congr_left
      intro k _
      simp only [Function.comp_apply, DateV.num.injEq]
      push_cast
      ring

theorem dummyLoop_wellFormed (today : ℤ) :
    ∀ (n : ℕ) (c : ℚ), 0 < c →
      (dummyLoop today n c).all candleWellFormed = true := by
  intro n
  induction n with
  | zero => intro c _; rfl
  | succ n ih =>
    intro c hc
    have hfac : (0 : ℚ) < 1 + (((n % 10 : ℕ) : ℚ) - 5) * (1 / 1000) := by
      have h0 : (0 : ℚ) ≤ ((n % 10 : ℕ) : ℚ) := Nat.cast_nonneg _
      linarith
    have hc2 : 0 < c * (1 + 5 / 10000) * (1 + (((n % 10 : ℕ) : ℚ) - 5) * (1 / 1000)) := by
      have : (0 : ℚ) < c * (1 + 5 / 10000) := by linarith
      exact mul_pos this hfac
    set c2 := c * (1 + 5 / 10000) * (1 + (((n % 10 : ℕ) : ℚ) - 5) * (1 / 1000)) with hc2def
    rw [dummyLoop, List.all_cons, Bool.and_eq_true]
    refine And.intro ?_ (ih _ hc2)
    have hmin : 0 < min c c2 := lt_min hc hc2
    have hmax : 0 < max c c2 := lt_of_lt_of_le hc (le_max_left _ _)
    simp only [candleWellFormed, Bool.and_eq_true, decide_eq_true_eq]
    rw [← hc2def]
    refine ⟨⟨⟨?_, min_le_max⟩, ?_⟩, trivial⟩
    · linarith
    · linarith

/-- C10: every row of the synthetic fallback series is a well-formed
candle (`low < min(open, close) ≤ max(open, close) < high`, volume
1,500,000), and the dates are exactly the 221 consecutive calendar days
ending at the current date (strictly increasing). -/
theorem dummySeries_candles_wellFormed (code : String) (today : ℤ) :
    (dummySeries code today).all candleWellFormed = true ∧
    (dummySeries code today).map Candle.date =
      (List.range 221).map (fun (k : ℕ) => DateV.num (today - 220 + (k : ℤ))) := by
  constructor
  · apply dummyLoop_wellFormed
    have : (0 : ℚ) ≤ ((natOfDigits code.toList % 500 : ℕ) : ℚ) := Nat.cast_nonneg _
    unfold dummySeries at *
    linarith
  · rw [dummySeries, dummyLoop_dates]
    apply List.map_congr_left
    intro k _
    simp only [DateV.num.injEq]
    omega

/-- C5: for a valid code whose cache file is absent, the resolver answers
with the synthetic series — exactly 221 rows, the `dummy` flag set and
provenance `"dummy"` — and any two calls with the file absent return the
identical response (the series is a function of the code and the current
day only). -/
theorem priceGET_dummy_fallback (code : String) (fs fs2 : String → Option String)
    (today : ℤ) (hv : valid4 code = true)
    (h1 : fs (cachePathForCode code) = none)
    (h2 : fs2 (cachePathForCode code) = none) :
    priceGET code fs today = .ok code (dummySeries code today) true "dummy" ∧
    (dummySeries code today).length = 221 ∧
    priceGET code fs today = priceGET code fs2 today := by
  unfold priceGET
  rw [h1, h2]
  simp [hv, dummySeries, dummyLoop_length]

/-- Witness for `priceGET_dummy_fallback` at code `"9999"` with an empty
filesystem. -/
theorem priceGET_dummy_fallback_witness :
    valid4 "9999" = true ∧
    ((fun _ => none) : String → Option String) (cachePathForCode "9999") = none ∧
    (priceGET "9999" (fun _ => none) 0 =
        .ok "9999" (dummySeries "9999" 0) true "dummy" ∧
      (dummySeries "9999" 0).length = 221 ∧
      priceGET "9999" (fun _ => none) 0 = priceGET "9999" (fun _ => none) 0) :=
  ⟨rfl, rfl, priceGET_dummy_fallback "9999" (fun _ => none) (fun _ => none) 0 rfl rfl rfl⟩

/-- C4: a code that fails `^\d{4}$` is rejected with the invalid-input
response whatever the filesystem contains (so before any file access),
and a code that passes is never answered with the invalid-input
response. -/
theorem priceGET_validation (code : String) :
    (valid4 code = false →
      ∀ (fs : String → Option String) (today : ℤ),
        priceGET code fs today = .invalid) ∧
    (valid4 code = true →
      ∀ (fs : String → Option String) (today : ℤ),
        priceGET code fs today ≠ .invalid) := by
  constructor
  · intro h fs today
    unfold priceGET
    simp [h]
  · intro h fs today
    unfold priceGET
    rw [h]
    simp only [Bool.not_true, Bool.false_eq_true, if_false]
    cases fs (cachePathForCode code) <;> simp

/-- Witness for `priceGET_validation` at the spec's example codes `"abcd"`
and `"12345"`, and at the accepted `"1234"`. -/
theorem priceGET_validation_witness :
    (valid4 "abcd" = false ∧ priceGET "abcd" (fun _ => none) 0 = .invalid) ∧
    (valid4 "12345" = false ∧ priceGET "12345" (fun _ => none) 0 = .invalid) ∧
    (valid4 "1234" = true ∧ priceGET "1234" (fun _ => none) 0 ≠ .invalid) :=
  ⟨⟨rfl, (priceGET_validation "abcd").1 rfl _ _⟩,
   ⟨rfl, (priceGET_validation "12345").1 rfl _ _⟩,
   ⟨rfl, (priceGET_validation "1234").2 rfl _ _⟩⟩

/-- C3: fewer than 30 closes is answered with a success response carrying
an empty forecast (and no method field), not an error. -/
theorem predict_short_series (code : String) (series : List Bar)
    (h : (series.map Bar.close).length < 30) :
    predictFromSeries code series = .ok code [] none := by
  unfold predictFromSeries
  rw [if_pos h]

/-- Witness for `predict_short_series` on a 29-bar series. -/
theorem predict_short_series_witness :
    ((((List.range 29).map (fun (i : ℕ) => Bar.mk (i : ℤ) 100)).map Bar.close).length < 30) ∧
    predictFromSeries "7203" ((List.range 29).map (fun (i : ℕ) => Bar.mk (i : ℤ) 100)) =
      .ok "7203" [] none :=
  ⟨by rw [List.length_map, List.length_map, List.length_range]; norm_num,
   predict_short_series "7203" _
     (by rw [List.length_map, List.length_map, List.length_range]; norm_num)⟩

end StockScreener

namespace StockScreener

/-! ## Lemmas about the report-date catalog -/

/-- A filename matched by the report pattern is fully reconstructed from
its captured date: `nikkei-report-<date>.html`. -/
theorem matchReportName_shape (f d : String) (h : matchReportName f = some d) :
    f.data = "nikkei-report-".data ++ d.data ++ ".html".data := by
  rw [matchReportName] at h
  split at h
  case isFalse => exact Option.noConfusion h
  case isTrue hcond =>
    injection h with hd
    simp only [Bool.and_eq_true, decide_eq_true_eq] at hcond
    obtain ⟨⟨⟨⟨⟨⟨⟨hlen, hpre⟩, hsuf⟩, -⟩, -⟩, -⟩, -⟩, -⟩ := hcond
    have hdd : d.data = (f.toList.drop 14).take 10 := by
      rw [← hd]
    have hpre2 : "nikkei-report-".toList <+: f.toList :=
      List.isPrefixOf_iff_prefix.mp hpre
    have htake14 : List.take 14 f.toList = "nikkei-report-".toList := by
      rw [List.prefix_iff_eq_take] at hpre2
      exact hpre2.symm
    have hsuf2 : ".html".toList <+: f.toList.drop 24 :=
      List.isPrefixOf_iff_prefix.mp hsuf
    have hdrop24 : f.toList.drop 24 = ".html".toList := by
      refine (hsuf2.eq_of_length ?_).symm
      rw [List.length_drop, hlen]
      decide
    have h24 : List.take 24 f.toList =
        List.take 14 f.toList ++ List.take 10 (List.drop 14 f.toList) := by
      have := List.take_add f.toList 14 10
      norm_num at this
      exact this
    have hsplit : f.toList =
        List.take 14 f.toList ++ List.take 10 (List.drop 14 f.toList) ++
          List.drop 24 f.toList := by
      rw [← h24, List.take_append_drop]
    calc f.data = f.toList := rfl
      _ = _ := by rw [hsplit, htake14, hdrop24, ← hdd]; rfl

/-- Partial injectivity of the filename pattern: two directory entries
yielding the same date are the same entry. -/
theorem matchReportName_inj (a b d : String) (ha : matchReportName a = some d)
    (hb : matchReportName b = some d) : a = b :=
  String.ext ((matchReportName_shape a d ha).trans
    (matchReportName_shape b d hb).symm)

/-- C7: the catalog returns exactly the dates of the entries matching
`nikkei-report-<YYYY-MM-DD>.html` (a permutation of the extraction),
sorted descending; distinct directory entries give distinct dates
(deduplication holds); an unreadable storage location or one without
matches yields the empty list, and the response is always `ok`, never an
error. -/
theorem reportDates_catalog :
    datesGET none = .ok [] ∧
    ∀ files : List String, ∃ dates : List String,
      datesGET (some files) = .ok dates ∧
      dates.Perm (files.filterMap matchReportName) ∧
      List.Sorted (fun a b : String => b ≤ a) dates ∧
      (files.Nodup → dates.Nodup) ∧
      (files.filterMap matchReportName = [] → dates = []) := by
  refine ⟨rfl, ?_⟩
  intro files
  refine ⟨_, rfl, ?_, ?_, ?_, ?_⟩
  · exact (List.reverse_perm _).trans (List.perm_insertionSort _ _)
  · rw [List.Sorted, List.pairwise_reverse]
    exact List.sorted_insertionSort (fun a b : String => a ≤ b) _
  · intro hnd
    rw [List.nodup_reverse, (List.perm_insertionSort _ _).nodup_iff]
    exact List.Nodup.filterMap
      (fun a a2 b hb hb2 => matchReportName_inj a a2 b hb hb2) hnd
  · intro hempty
    rw [hempty]
    rfl

/-- Witness for `reportDates_catalog`: a concrete listing with two report
files and one unrelated entry, and a listing with no matches. -/
theorem reportDates_catalog_witness :
    (["nikkei-report-2024-01-02.html", "note.txt",
      "nikkei-report-2023-05-06.html"] : List String).Nodup ∧
    (∃ dates : List String,
      datesGET (some ["nikkei-report-2024-01-02.html", "note.txt",
        "nikkei-report-2023-05-06.html"]) = .ok dates ∧ dates.Nodup) ∧
    (["plain.txt"] : List String).filterMap matchReportName = [] ∧
    ∃ dates2 : List String,
      datesGET (some ["plain.txt"]) = .ok dates2 ∧ dates2 = [] := by
  obtain ⟨dates, hok, -, -, hnd, -⟩ := reportDates_catalog.2
    ["nikkei-report-2024-01-02.html", "note.txt", "nikkei-report-2023-05-06.html"]
  obtain ⟨dates2, hok2, -, -, -, hemp⟩ := reportDates_catalog.2 ["plain.txt"]
  have hfn : (["nikkei-report-2024-01-02.html", "note.txt",
      "nikkei-report-2023-05-06.html"] : List String).Nodup := by decide
  have hfm : (["plain.txt"] : List String).filterMap matchReportName = [] := by decide
  exact ⟨hfn, ⟨dates, hok, hnd hfn⟩, hfm, dates2, hok2, hemp hfm⟩

end StockScreener

namespace StockScreener

/-! ## Lemmas about the cache branch of the price route -/

/-- A CSV row is skipped exactly when it is malformed in the sense of the
spec: fewer than 6 fields, an empty date, or a non-finite
open/high/low/close/volume. -/
theorem parseRowLine_none_iff (line : String) :
    parseRowLine line = none ↔ malformedRow line := by
  rw [parseRowLine, malformedRow]
  by_cases h1 : (line.splitOn ",").length < 6
  · rw [if_pos h1]
    simp [h1]
  · rw [if_neg h1]
    simp only [h1, false_or]
    by_cases h2 : (line.splitOn ",").getD 0 "" = ""
    · rw [if_pos h2]
      exact iff_of_true rfl (Or.inl h2)
    · rw [if_neg h2]
      simp only [h2, false_or]
      cases jsFiniteNumber ((line.splitOn ",").getD 1 "") <;>
        cases jsFiniteNumber ((line.splitOn ",").getD 2 "") <;>
        cases jsFiniteNumber ((line.splitOn ",").getD 3 "") <;>
        cases jsFiniteNumber ((line.splitOn ",").getD 4 "") <;>
        cases jsFiniteNumber ((line.splitOn ",").getD 5 "") <;>
        simp

/-- The cap: the cache series never exceeds 200 rows. -/
theorem cacheSeries_length_le (text : String) : (cacheSeries text).length ≤ 200 := by
  rw [cacheSeries, takeRight, List.length_drop]
  omega

/-- C6: for a valid code whose cache file is present, the resolver answers
`ok` (no error) with provenance `"cache"` and series equal to the data
rows (header skipped) that parse, capped to the most recent 200; a row
fails to parse exactly when it is malformed; the result never exceeds 200
rows. -/
theorem priceGET_cache (code : String) (fs : String → Option String) (today : ℤ)
    (text : String) (hv : valid4 code = true)
    (hf : fs (cachePathForCode code) = some text) :
    priceGET code fs today =
      .ok code (takeRight 200
        (((jsSplitLines (jsTrim text)).drop 1).filterMap parseRowLine))
        false "cache" ∧
    (∀ line : String, parseRowLine line = none ↔ malformedRow line) ∧
    (takeRight 200
      (((jsSplitLines (jsTrim text)).drop 1).filterMap parseRowLine)).length ≤ 200 := by
  refine ⟨?_, fun line => parseRowLine_none_iff line, ?_⟩
  · unfold priceGET
    rw [hf]
    simp [hv, cacheSeries]
  · have h := cacheSeries_length_le text
    rwa [cacheSeries] at h

set_option maxRecDepth 4000 in
/-- Witness for `priceGET_cache`: a two-row file whose second row has a
non-numeric close. -/
theorem priceGET_cache_witness :
    valid4 "1234" = true ∧
    ((fun (_ : String) => some "h\n2024-01-01,1,2,3,4,5\n2024-01-02,1,2,3,x,5")
        (cachePathForCode "1234") =
      some "h\n2024-01-01,1,2,3,4,5\n2024-01-02,1,2,3,x,5") ∧
    priceGET "1234"
        (fun _ => some "h\n2024-01-01,1,2,3,4,5\n2024-01-02,1,2,3,x,5") 0 =
      .ok "1234"
        (takeRight 200
          (((jsSplitLines
              (jsTrim "h\n2024-01-01,1,2,3,4,5\n2024-01-02,1,2,3,x,5")).drop
                1).filterMap parseRowLine))
        false "cache" :=
  ⟨rfl, rfl,
   (priceGET_cache "1234"
     (fun _ => some "h\n2024-01-01,1,2,3,4,5\n2024-01-02,1,2,3,x,5") 0
     "h\n2024-01-01,1,2,3,4,5\n2024-01-02,1,2,3,x,5" rfl rfl).1⟩

end StockScreener

namespace StockScreener

/-! ## Lemmas about the forecast -/

/-- A list's sum as a sum of its `getD` values. -/
theorem list_sum_getD (l : List ℚ) :
    l.sum = ∑ i ∈ Finset.range l.length, l.getD i 0 := by
  induction l with
  | nil => simp
  | cons a t ih =>
    rw [List.sum_cons, List.length_cons, Finset.sum_range_succ']
    simp only [List.getD_cons_succ, List.getD_cons_zero]
    rw [← ih]
    ring

/-- The loop sums of the route as `Finset` sums. -/
theorem map_range_sum (n : ℕ) (f : ℕ → ℚ) :
    ((List.range n).map f).sum = ∑ i ∈ Finset.range n, f i := by
  induction n with
  | zero => simp
  | succ n ih => rw [List.sum_range_succ, Finset.sum_range_succ, ih]

/-- The regression of the route equals the spec's OLS formulas: the
forecast is the ten fitted values at indices `N-1+k`, rounded to two
decimals, at the last date advanced by `k` days. -/
theorem forecastOf_eq_spec (series : List Bar) :
    forecastOf series = (List.range 10).map (fun (k : ℕ) =>
      FPoint.mk (lastDateOf series + ((k : ℤ) + 1))
        (round2 (olsIntercept (series.map Bar.close) +
          olsSlope (series.map Bar.close) *
            ((olsN (series.map Bar.close) : ℚ) - 1 + ((k : ℚ) + 1))))) := by
  simp only [forecastOf]
  apply List.map_congr_left
  intro k hk
  have hN : ((series.map Bar.close).drop
      ((series.map Bar.close).length - min 60 (series.map Bar.close).length)).length =
      min 60 (series.map Bar.close).length := by
    rw [List.length_drop]
    omega
  have hpow : ∀ (n : ℕ) (xm : ℚ),
      (∑ i ∈ Finset.range n, ((i : ℚ) - xm) * ((i : ℚ) - xm)) =
        ∑ i ∈ Finset.range n, ((i : ℚ) - xm) ^ 2 :=
    fun n xm => Finset.sum_congr rfl (fun i _ => by ring)
  refine congrArg₂ FPoint.mk ?_ (congrArg round2 ?_)
  · simp only [addDaysISO, lastDateOf]
    push_cast
    ring
  · simp only [olsIntercept, olsSlope, olsNum, olsDen, olsYMean, olsXMean, olsY, olsN]
    rw [map_range_sum, map_range_sum, list_sum_getD, hN, hpow]

/-- C2: with at least 30 closes the route answers `ok` with method
`"linear-regression-close"` and exactly ten points; point `k` (1-based)
carries the OLS fitted value at window index `N-1+k` rounded to two
decimals (slope 0 on a zero denominator), dated `k` calendar days after
the last known date — hence the dates are strictly increasing and
strictly in the future. -/
theorem forecast_ols (code : String) (series : List Bar)
    (h : 30 ≤ (series.map Bar.close).length) :
    ∃ F : List FPoint,
      predictFromSeries code series = .ok code F (some "linear-regression-close") ∧
      F.length = 10 ∧
      (∀ k : ℕ, k < 10 →
        F[k]? = some (FPoint.mk (lastDateOf series + ((k : ℤ) + 1))
          (round2 (olsIntercept (series.map Bar.close) +
            olsSlope (series.map Bar.close) *
              ((olsN (series.map Bar.close) : ℚ) - 1 + ((k : ℚ) + 1)))))) ∧
      (F.map FPoint.date).Pairwise (· < ·) ∧
      ∀ d ∈ F.map FPoint.date, lastDateOf series < d := by
  refine ⟨forecastOf series, ?_, ?_, ?_, ?_, ?_⟩
  · rw [predictFromSeries, if_neg (by omega)]
  · rw [forecastOf_eq_spec]
    simp
  · intro k hk
    rw [forecastOf_eq_spec, List.getElem?_map, List.getElem?_range hk, Option.map_some']
  · rw [forecastOf_eq_spec, List.map_map, List.pairwise_map]
    refine List.Pairwise.imp ?_ (List.pairwise_lt_range 10)
    intro a b hab
    simp only [Function.comp_apply]
    omega
  · intro d hd
    rw [forecastOf_eq_spec, List.map_map] at hd
    obtain ⟨k, -, rfl⟩ := List.mem_map.mp hd
    simp only [Function.comp_apply]
    omega

/-- Witness for `forecast_ols`: thirty constant closes. -/
theorem forecast_ols_witness :
    30 ≤ (((List.range 30).map (fun (i : ℕ) => Bar.mk (i : ℤ) 100)).map Bar.close).length ∧
    ∃ F : List FPoint,
      predictFromSeries "7203" ((List.range 30).map (fun (i : ℕ) => Bar.mk (i : ℤ) 100)) =
        .ok "7203" F (some "linear-regression-close") ∧ F.length = 10 := by
  have h30 : 30 ≤ (((List.range 30).map (fun (i : ℕ) => Bar.mk (i : ℤ) 100)).map
      Bar.close).length := by
    rw [List.length_map, List.length_map, List.length_range]
  obtain ⟨F, h1, h2, -, -, -⟩ := forecast_ols "7203" _ h30
  exact ⟨h30, F, h1, h2⟩

end StockScreener

namespace StockScreener

/-! ## Lemmas about the `byCode` association list -/

theorem mapFind_upsert_self (m : PickMap) (k : String) (v : Pick) :
    mapFind (upsert m k v) k = some v := by
  induction m with
  | nil => simp [upsert, mapFind]
  | cons e rest ih =>
    obtain ⟨k1, p⟩ := e
    by_cases h : k1 = k
    · rw [upsert, if_pos h, mapFind, if_pos rfl]
    · rw [upsert, if_neg h, mapFind, if_neg h, ih]

theorem mapFind_upsert_ne (m : PickMap) (k k2 : String) (v : Pick) (h : k2 ≠ k) :
    mapFind (upsert m k v) k2 = mapFind m k2 := by
  have hne : ¬ k = k2 := fun he => h he.symm
  induction m with
  | nil => simp [upsert, mapFind, hne]
  | cons e rest ih =>
    obtain ⟨k1, p⟩ := e
    by_cases h1 : k1 = k
    · subst h1
      rw [upsert, if_pos rfl, mapFind, mapFind, if_neg hne, if_neg hne]
    · rw [upsert, if_neg h1, mapFind, mapFind, ih]

theorem mapFind_updateAt_self (m : PickMap) (k : String) (f : Pick → Pick) :
    mapFind (updateAt m k f) k = (mapFind m k).map f := by
  induction m with
  | nil => simp [updateAt, mapFind]
  | cons e rest ih =>
    obtain ⟨k1, p⟩ := e
    by_cases h : k1 = k
    · rw [updateAt, if_pos h, mapFind, if_pos h, mapFind, if_pos h, Option.map_some']
    · rw [updateAt, if_neg h, mapFind, if_neg h, mapFind, if_neg h, ih]

theorem mapFind_updateAt_ne (m : PickMap) (k k2 : String) (f : Pick → Pick)
    (h : k2 ≠ k) : mapFind (updateAt m k f) k2 = mapFind m k2 := by
  induction m with
  | nil => rfl
  | cons e rest ih =>
    obtain ⟨k1, p⟩ := e
    by_cases h1 : k1 = k
    · rw [updateAt, if_pos h1]
      have h2 : ¬ k1 = k2 := fun he => h (he ▸ h1)
      rw [mapFind, if_neg h2, mapFind, if_neg h2, ih]
    · rw [updateAt, if_neg h1, mapFind, mapFind, ih]

theorem updateAt_keys (m : PickMap) (k : String) (f : Pick → Pick) :
    (updateAt m k f).map Prod.fst = m.map Prod.fst := by
  induction m with
  | nil => rfl
  | cons e rest ih =>
    obtain ⟨k1, p⟩ := e
    by_cases h : k1 = k
    · rw [updateAt, if_pos h, List.map_cons, List.map_cons, ih]
    · rw [updateAt, if_neg h, List.map_cons, List.map_cons, ih]

theorem upsert_keys_mem (m : PickMap) (k : String) (v : Pick)
    (h : k ∈ m.map Prod.fst) : (upsert m k v).map Prod.fst = m.map Prod.fst := by
  induction m with
  | nil => simp at h
  | cons e rest ih =>
    obtain ⟨k1, p⟩ := e
    by_cases h1 : k1 = k
    · rw [upsert, if_pos h1, List.map_cons, List.map_cons, h1]
    · rw [List.map_cons, List.mem_cons] at h
      rcases h with h | h
      · exact absurd h.symm h1
      · rw [upsert, if_neg h1, List.map_cons, List.map_cons, ih h]

theorem upsert_eq_append (m : PickMap) (k : String) (v : Pick)
    (h : k ∉ m.map Prod.fst) : upsert m k v = m ++ [(k, v)] := by
  induction m with
  | nil => rfl
  | cons e rest ih =>
    obtain ⟨k1, p⟩ := e
    rw [List.map_cons, List.mem_cons, not_or] at h
    have h1 : ¬ k1 = k := fun he => h.1 he.symm
    rw [upsert, if_neg h1, ih h.2, List.cons_append]

theorem mem_upsert (m : PickMap) (k : String) (v : Pick) (e : String × Pick)
    (h : e ∈ upsert m k v) : e = (k, v) ∨ e ∈ m := by
  induction m with
  | nil => simpa [upsert] using h
  | cons e1 rest ih =>
    obtain ⟨k1, p⟩ := e1
    by_cases h1 : k1 = k
    · rw [upsert, if_pos h1] at h
      rcases List.mem_cons.mp h with h | h
      · exact Or.inl h
      · exact Or.inr (List.mem_cons_of_mem _ h)
    · rw [upsert, if_neg h1] at h
      rcases List.mem_cons.mp h with h | h
      · exact Or.inr (h ▸ List.mem_cons_self _ _)
      · rcases ih h with h | h
        · exact Or.inl h
        · exact Or.inr (List.mem_cons_of_mem _ h)

theorem mem_updateAt (m : PickMap) (k : String) (f : Pick → Pick)
    (e : String × Pick) (h : e ∈ updateAt m k f) :
    ∃ e2 ∈ m, e = e2 ∨ e = (e2.1, f e2.2) := by
  induction m with
  | nil => simp [updateAt] at h
  | cons e1 rest ih =>
    obtain ⟨k1, p⟩ := e1
    rw [updateAt] at h
    rcases List.mem_cons.mp h with h | h
    · by_cases h1 : k1 = k
      · rw [if_pos h1] at h
        exact ⟨(k1, p), List.mem_cons_self _ _, Or.inr h⟩
      · rw [if_neg h1] at h
        exact ⟨(k1, p), List.mem_cons_self _ _, Or.inl h⟩
    · obtain ⟨e2, he2, hor⟩ := ih h
      exact ⟨e2, List.mem_cons_of_mem _ he2, hor⟩

theorem upsert_keys_nodup (m : PickMap) (k : String) (v : Pick)
    (h : (m.map Prod.fst).Nodup) : ((upsert m k v).map Prod.fst).Nodup := by
  by_cases hk : k ∈ m.map Prod.fst
  · rwa [upsert_keys_mem m k v hk]
  · rw [upsert_eq_append m k v hk, List.map_append]
    rw [List.nodup_append]
    refine ⟨h, List.nodup_singleton k, ?_⟩
    intro a ha hak
    simp only [List.map_cons, List.map_nil, List.mem_singleton] at hak
    subst hak
    exact hk ha

end StockScreener

namespace StockScreener

/-! ## Invariants of the two passes -/

theorem mapFind_mem (m : PickMap) (k : String) (p : Pick)
    (h : mapFind m k = some p) : (k, p) ∈ m := by
  induction m with
  | nil => simp [mapFind] at h
  | cons e rest ih =>
    obtain ⟨k1, p1⟩ := e
    by_cases h1 : k1 = k
    · rw [mapFind, if_pos h1] at h
      injection h with h
      subst h1 h
      exact List.mem_cons_self _ _
    · rw [mapFind, if_neg h1] at h
      exact List.mem_cons_of_mem _ (ih h)

theorem pass1step_wf (m : PickMap) (line : String)
    (h1 : (m.map Prod.fst).Nodup) (h2 : ∀ e ∈ m, e.2.code = e.1) :
    ((pass1step m line).map Prod.fst).Nodup ∧
      ∀ e ∈ pass1step m line, e.2.code = e.1 := by
  rw [pass1step]
  cases ho : matchOverview line with
  | none => exact ⟨h1, h2⟩
  | some o =>
    refine ⟨upsert_keys_nodup _ _ _ h1, ?_⟩
    intro e he
    rcases mem_upsert _ _ _ _ he with h | h
    · subst h
      rfl
    · exact h2 e h

theorem headPick_code (h : HeadRec) (m : PickMap)
    (h2 : ∀ e ∈ m, e.2.code = e.1) : (headPick h m).code = h.code := by
  rw [headPick]
  cases hf : mapFind m h.code with
  | none => rfl
  | some p => exact h2 _ (mapFind_mem m h.code p hf)

theorem updateAt_wf (m : PickMap) (k : String) (f : Pick → Pick)
    (hf : ∀ p, (f p).code = p.code)
    (h1 : (m.map Prod.fst).Nodup) (h2 : ∀ e ∈ m, e.2.code = e.1) :
    ((updateAt m k f).map Prod.fst).Nodup ∧
      ∀ e ∈ updateAt m k f, e.2.code = e.1 := by
  refine ⟨by rwa [updateAt_keys], ?_⟩
  intro e he
  obtain ⟨e2, he2, hor⟩ := mem_updateAt m k f e he
  rcases hor with h | h
  · rw [h]
    exact h2 e2 he2
  · rw [h]
    show (f e2.2).code = e2.1
    rw [hf]
    exact h2 e2 he2

theorem applyRow_wf (line : String) (m : PickMap) (c : String)
    (h1 : (m.map Prod.fst).Nodup) (h2 : ∀ e ∈ m, e.2.code = e.1) :
    (((applyRow line m c).map Prod.fst).Nodup) ∧
      ∀ e ∈ applyRow line m c, e.2.code = e.1 := by
  rw [applyRow]
  cases matchTableRow line with
  | none => exact ⟨h1, h2⟩
  | some kv =>
    obtain ⟨key, val⟩ := kv
    dsimp only
    by_cases hk : hasSub key "最新收盘价" = true
    · rw [if_pos hk]
      cases digitsDotsVal (val.toList.filter isDigitOrDot) with
      | none => exact ⟨h1, h2⟩
      | some q => exact updateAt_wf m c _ (fun p => rfl) h1 h2
    · rw [if_neg hk]
      exact ⟨h1, h2⟩

theorem applyBullet_wf (line : String) (m : PickMap) (c : String)
    (h1 : (m.map Prod.fst).Nodup) (h2 : ∀ e ∈ m, e.2.code = e.1) :
    (((applyBullet line m c).map Prod.fst).Nodup) ∧
      ∀ e ∈ applyBullet line m c, e.2.code = e.1 := by
  rw [applyBullet]
  cases matchBullet line with
  | none => exact ⟨h1, h2⟩
  | some b =>
    dsimp only
    by_cases hk : keywordLine line = true
    · rw [if_pos hk]
      exact updateAt_wf m c _ (fun p => rfl) h1 h2
    · rw [if_neg hk]
      exact ⟨h1, h2⟩

theorem pass2step_wf (st : PickMap × Option String) (line : String)
    (h1 : (st.1.map Prod.fst).Nodup) (h2 : ∀ e ∈ st.1, e.2.code = e.1) :
    (((pass2step st line).1.map Prod.fst).Nodup) ∧
      ∀ e ∈ (pass2step st line).1, e.2.code = e.1 := by
  rw [pass2step]
  cases hh : matchHeading line with
  | some h =>
    refine ⟨upsert_keys_nodup _ _ _ h1, ?_⟩
    intro e he
    rcases mem_upsert _ _ _ _ he with he2 | he2
    · subst he2
      exact headPick_code h st.1 h2
    · exact h2 e he2
  | none =>
    cases st.2 with
    | none => exact ⟨h1, h2⟩
    | some c =>
      have hr := applyRow_wf line st.1 c h1 h2
      exact applyBullet_wf line _ c hr.1 hr.2

theorem foldl_pass1step_wf (ls : List String) (m : PickMap)
    (h1 : (m.map Prod.fst).Nodup) (h2 : ∀ e ∈ m, e.2.code = e.1) :
    (((ls.foldl pass1step m).map Prod.fst).Nodup) ∧
      ∀ e ∈ ls.foldl pass1step m, e.2.code = e.1 := by
  induction ls generalizing m with
  | nil => exact ⟨h1, h2⟩
  | cons l ls ih =>
    rw [List.foldl_cons]
    have hs := pass1step_wf m l h1 h2
    exact ih _ hs.1 hs.2

theorem pass1_wf (ls : List String) :
    ((pass1 ls).map Prod.fst).Nodup ∧ ∀ e ∈ pass1 ls, e.2.code = e.1 := by
  rw [pass1]
  exact foldl_pass1step_wf ls [] List.nodup_nil (by intro e he; simp at he)

theorem foldl_pass2step_wf (ls : List String) (st : PickMap × Option String)
    (h1 : (st.1.map Prod.fst).Nodup) (h2 : ∀ e ∈ st.1, e.2.code = e.1) :
    (((ls.foldl pass2step st).1.map Prod.fst).Nodup) ∧
      ∀ e ∈ (ls.foldl pass2step st).1, e.2.code = e.1 := by
  induction ls generalizing st with
  | nil => exact ⟨h1, h2⟩
  | cons l ls ih =>
    rw [List.foldl_cons]
    have hs := pass2step_wf st l h1 h2
    exact ih _ hs.1 hs.2

theorem pass2_wf (m : PickMap) (ls : List String)
    (h1 : (m.map Prod.fst).Nodup) (h2 : ∀ e ∈ m, e.2.code = e.1) :
    (((pass2 m ls).map Prod.fst).Nodup) ∧
      ∀ e ∈ pass2 m ls, e.2.code = e.1 := by
  rw [pass2]
  exact foldl_pass2step_wf ls (m, none) h1 h2

/-- `Object.values` is a permutation of the stored picks. -/
theorem objectValues_perm (m : PickMap) :
    (objectValues m).Perm (m.map Prod.snd) := by
  rw [objectValues]
  refine List.Perm.map Prod.snd ?_
  refine ((List.perm_insertionSort keyLe _).append_right _).trans ?_
  exact List.filter_append_perm _ m

/-- C9: the parser returns at most one pick per code — the codes of the
returned picks are pairwise distinct, for every input document. -/
theorem parse_picks_code_nodup (md : String) :
    ((parseTopPicksFromMarkdown md).map Pick.code).Nodup := by
  simp only [parseTopPicksFromMarkdown]
  have hwf := pass2_wf (pass1 (jsSplitLines md)) (jsSplitLines md)
    (pass1_wf (jsSplitLines md)).1 (pass1_wf (jsSplitLines md)).2
  set m := pass2 (pass1 (jsSplitLines md)) (jsSplitLines md) with hm
  have hv : ((objectValues m).map Pick.code).Nodup := by
    have hperm := (objectValues_perm m).map Pick.code
    have heq : (m.map Prod.snd).map Pick.code = m.map Prod.fst := by
      rw [List.map_map]
      exact List.map_congr_left fun e he => hwf.2 e he
    rw [hperm.nodup_iff, heq]
    exact hwf.1
  have hf : (((objectValues m).filter pickKeep).map Pick.code).Nodup :=
    ((List.filter_sublist _).map Pick.code).nodup hv
  have hs : ((((objectValues m).filter pickKeep).insertionSort rankLe).map
      Pick.code).Nodup := by
    have hperm := (List.perm_insertionSort rankLe
      ((objectValues m).filter pickKeep)).map Pick.code
    rw [hperm.nodup_iff]
    exact hf
  exact ((List.take_sublist 10 _).map Pick.code).nodup hs

end StockScreener

namespace StockScreener

/-! ## The detail pass and rationale bullets -/

/-- The table-row step never changes any pick's `reasons` (it only sets
`close`). -/
theorem applyRow_reasons (line : String) (m : PickMap) (c k : String) :
    (mapFind (applyRow line m c) k).map Pick.reasons =
      (mapFind m k).map Pick.reasons := by
  rw [applyRow]
  cases matchTableRow line with
  | none => rfl
  | some kv =>
    obtain ⟨key, val⟩ := kv
    dsimp only
    by_cases hk : hasSub key "最新收盘价" = true
    · rw [if_pos hk]
      cases digitsDotsVal (val.toList.filter isDigitOrDot) with
      | none => rfl
      | some q =>
        by_cases hkc : k = c
        · subst hkc
          rw [mapFind_updateAt_self]
          cases mapFind m k <;> rfl
        · rw [mapFind_updateAt_ne m c k _ hkc]
    · rw [if_neg hk]

/-- C8: inside a pick's section (current pick `c`, line not a heading),
the line's trimmed bullet content is appended to `c`'s `reasons` exactly
when the line has the bullet shape and contains one of the keywords
(动量 / EMA / 波动率); otherwise — bullet without keyword, or no bullet —
every pick's `reasons` are unchanged, and other picks' `reasons` are never
touched.  The section context is kept. -/
theorem detail_bullet_reasons (m : PickMap) (c : String) (line : String)
    (p : Pick) (hh : matchHeading line = none) (hp : mapFind m c = some p) :
    (pass2step (m, some c) line).2 = some c ∧
    (mapFind (pass2step (m, some c) line).1 c).map Pick.reasons =
      some (match matchBullet line, keywordLine line with
        | some b, true => some (p.reasons.getD [] ++ [b])
        | _, _ => p.reasons) ∧
    ∀ k, k ≠ c →
      (mapFind (pass2step (m, some c) line).1 k).map Pick.reasons =
        (mapFind m k).map Pick.reasons := by
  rw [pass2step, hh]
  dsimp only
  refine ⟨rfl, ?_, ?_⟩
  · rw [applyBullet]
    cases hb : matchBullet line with
    | none =>
      dsimp only
      rw [applyRow_reasons, hp]
      rfl
    | some b =>
      dsimp only
      by_cases hkw : keywordLine line = true
      · have hrow := applyRow_reasons line m c c
        rw [hp] at hrow
        obtain ⟨p1, hp1, hp1r⟩ := Option.map_eq_some'.mp hrow
        rw [if_pos hkw, mapFind_updateAt_self, hp1, hkw]
        dsimp only
        show some (some (p1.reasons.getD [] ++ [b])) =
          some (some (p.reasons.getD [] ++ [b]))
        rw [hp1r]
      · have hkwf : keywordLine line = false := by
          simpa using hkw
        rw [if_neg hkw, hkwf]
        dsimp only
        rw [applyRow_reasons, hp]
        rfl
  · intro k hk
    rw [applyBullet]
    cases matchBullet line with
    | none =>
      dsimp only
      rw [applyRow_reasons]
    | some b =>
      dsimp only
      by_cases hkw : keywordLine line = true
      · rw [if_pos hkw, mapFind_updateAt_ne _ _ _ _ hk, applyRow_reasons]
      · rw [if_neg hkw, applyRow_reasons]

/-- Witness for `detail_bullet_reasons`: a one-pick map, a keyword bullet
line, and an untouched other key. -/
theorem detail_bullet_reasons_witness :
    matchHeading "- EMA cross" = none ∧
    mapFind [("7203", Pick.mk 1 "7203" none none none none none none none)]
      "7203" = some (Pick.mk 1 "7203" none none none none none none none) ∧
    (pass2step ([("7203", Pick.mk 1 "7203" none none none none none none none)],
        some "7203") "- EMA cross").2 = some "7203" ∧
    (mapFind (pass2step
        ([("7203", Pick.mk 1 "7203" none none none none none none none)],
          some "7203") "- EMA cross").1 "7203").map Pick.reasons =
      some (some ["EMA cross"]) ∧
    (mapFind (pass2step
        ([("7203", Pick.mk 1 "7203" none none none none none none none)],
          some "7203") "- EMA cross").1 "9999").map Pick.reasons =
      (mapFind [("7203", Pick.mk 1 "7203" none none none none none none none)]
        "9999").map Pick.reasons := by
  have h := detail_bullet_reasons
    [("7203", Pick.mk 1 "7203" none none none none none none none)]
    "7203" "- EMA cross" (Pick.mk 1 "7203" none none none none none none none)
    rfl rfl
  refine ⟨rfl, rfl, h.1, ?_, h.2.2 "9999" (by decide)⟩
  rw [h.2.1]
  decide

end StockScreener

namespace StockScreener

/-! ## Pass 1 on documents with pairwise distinct overview codes, and the
rank/key projection preserved by pass 2 -/

theorem matchOverview_code_ne (line : String) (o : OvRec)
    (h : matchOverview line = some o) : o.code ≠ "" := by
  rw [matchOverview] at h
  repeat' split at h
  all_goals try exact Option.noConfusion h
  injection h with h2
  rw [← h2]
  intro hc
  have hd := congrArg String.data hc
  simp at hd

theorem mapFind_of_key_mem (m : PickMap) (k : String)
    (h : k ∈ m.map Prod.fst) : ∃ p, mapFind m k = some p := by
  induction m with
  | nil => simp at h
  | cons e rest ih =>
    obtain ⟨k1, p1⟩ := e
    by_cases h1 : k1 = k
    · exact ⟨p1, by rw [mapFind, if_pos h1]⟩
    · rw [List.map_cons, List.mem_cons] at h
      rcases h with h | h
      · exact absurd h.symm h1
      · obtain ⟨p, hp⟩ := ih h
        exact ⟨p, by rw [mapFind, if_neg h1, hp]⟩

theorem upsert_existing_proj (m : PickMap) (k : String) (v : Pick) (p : Pick)
    (hfind : mapFind m k = some p) (hrank : v.rank = p.rank) :
    (upsert m k v).map (fun e => (e.1, e.2.rank)) =
      m.map (fun e => (e.1, e.2.rank)) := by
  induction m with
  | nil => simp [mapFind] at hfind
  | cons e rest ih =>
    obtain ⟨k1, p1⟩ := e
    by_cases h1 : k1 = k
    · rw [mapFind, if_pos h1] at hfind
      injection hfind with he
      subst he
      rw [upsert, if_pos h1, List.map_cons, List.map_cons, h1, hrank]
    · rw [mapFind, if_neg h1] at hfind
      rw [upsert, if_neg h1, List.map_cons, List.map_cons, ih hfind]

theorem updateAt_proj (m : PickMap) (k : String) (f : Pick → Pick)
    (hf : ∀ p, (f p).rank = p.rank) :
    (updateAt m k f).map (fun e => (e.1, e.2.rank)) =
      m.map (fun e => (e.1, e.2.rank)) := by
  induction m with
  | nil => rfl
  | cons e rest ih =>
    obtain ⟨k1, p1⟩ := e
    by_cases h1 : k1 = k
    · rw [updateAt, if_pos h1, List.map_cons, List.map_cons, ih, hf p1]
    · rw [updateAt, if_neg h1, List.map_cons, List.map_cons, ih]

theorem applyRow_proj (line : String) (m : PickMap) (c : String) :
    (applyRow line m c).map (fun e => (e.1, e.2.rank)) =
      m.map (fun e => (e.1, e.2.rank)) := by
  rw [applyRow]
  cases matchTableRow line with
  | none => rfl
  | some kv =>
    obtain ⟨key, val⟩ := kv
    dsimp only
    by_cases hk : hasSub key "最新收盘价" = true
    · rw [if_pos hk]
      cases digitsDotsVal (val.toList.filter isDigitOrDot) with
      | none => rfl
      | some q => exact updateAt_proj m c _ (fun p => rfl)
    · rw [if_neg hk]

theorem applyBullet_proj (line : String) (m : PickMap) (c : String) :
    (applyBullet line m c).map (fun e => (e.1, e.2.rank)) =
      m.map (fun e => (e.1, e.2.rank)) := by
  rw [applyBullet]
  cases matchBullet line with
  | none => rfl
  | some b =>
    dsimp only
    by_cases hk : keywordLine line = true
    · rw [if_pos hk]
      exact updateAt_proj m c _ (fun p => rfl)
    · rw [if_neg hk]

theorem pass2step_proj (st : PickMap × Option String) (line : String)
    (hh : ∀ h ∈ matchHeading line, h.code ∈ st.1.map Prod.fst) :
    (pass2step st line).1.map (fun e => (e.1, e.2.rank)) =
      st.1.map (fun e => (e.1, e.2.rank)) := by
  rw [pass2step]
  cases hhm : matchHeading line with
  | none =>
    cases st.2 with
    | none => rfl
    | some c =>
      dsimp only
      rw [applyBullet_proj, applyRow_proj]
  | some h =>
    dsimp only
    have hmem : h.code ∈ st.1.map Prod.fst := hh h hhm
    obtain ⟨p, hp⟩ := mapFind_of_key_mem st.1 h.code hmem
    rw [headPick, hp]
    exact upsert_existing_proj st.1 h.code _ p hp rfl

theorem map_fst_of_proj (m m2 : PickMap)
    (h : m.map (fun e => (e.1, e.2.rank)) = m2.map (fun e => (e.1, e.2.rank))) :
    m.map Prod.fst = m2.map Prod.fst := by
  have h2 := congrArg (List.map Prod.fst) h
  rwa [List.map_map, List.map_map] at h2

theorem foldl_pass2step_proj (ls : List String) (st : PickMap × Option String)
    (hh : ∀ line ∈ ls, ∀ h ∈ matchHeading line, h.code ∈ st.1.map Prod.fst) :
    (ls.foldl pass2step st).1.map (fun e => (e.1, e.2.rank)) =
      st.1.map (fun e => (e.1, e.2.rank)) := by
  induction ls generalizing st with
  | nil => rfl
  | cons l ls ih =>
    rw [List.foldl_cons]
    have hstep := pass2step_proj st l (hh l (List.mem_cons_self _ _))
    have hkeys := map_fst_of_proj _ _ hstep
    refine (ih (pass2step st l) ?_).trans hstep
    intro line hl h hh2
    rw [hkeys]
    exact hh line (List.mem_cons_of_mem _ hl) h hh2

theorem foldl_pass1step_append (ls : List String) (m : PickMap)
    (hd : ∀ o ∈ ls.filterMap matchOverview, o.code ∉ m.map Prod.fst)
    (hnd : ((ls.filterMap matchOverview).map OvRec.code).Nodup) :
    ls.foldl pass1step m =
      m ++ (ls.filterMap matchOverview).map (fun o => (o.code, ovPick o)) := by
  induction ls generalizing m with
  | nil => simp
  | cons l ls ih =>
    rw [List.foldl_cons]
    cases ho : matchOverview l with
    | none =>
      rw [pass1step, ho]
      dsimp only
      rw [ih m ?_ ?_, List.filterMap_cons_none ho]
      · intro o hom
        apply hd
        rw [List.filterMap_cons_none ho]
        exact hom
      · rwa [List.filterMap_cons_none ho] at hnd
    | some o =>
      rw [pass1step, ho]
      dsimp only
      have hmem : o ∈ (l :: ls).filterMap matchOverview := by
        rw [List.filterMap_cons_some ho]
        exact List.mem_cons_self _ _
      rw [upsert_eq_append m _ _ (hd o hmem)]
      rw [List.filterMap_cons_some ho] at hnd ⊢
      rw [List.map_cons] at hnd
      rw [ih (m ++ [(o.code, ovPick o)]) ?_ ?_]
      · rw [List.map_cons, List.append_assoc, List.singleton_append]
      · intro o2 ho2
        rw [List.map_append, List.mem_append]
        rintro (h | h)
        · exact hd o2 (by rw [List.filterMap_cons_some ho]
                          exact List.mem_cons_of_mem _ ho2) h
        · simp only [List.map_cons, List.map_nil, List.mem_singleton] at h
          exact (List.nodup_cons.mp hnd).1 (h ▸ List.mem_map_of_mem OvRec.code ho2)
      · exact (List.nodup_cons.mp hnd).2

theorem pass1_eq_of_nodup (ls : List String)
    (hnd : ((ls.filterMap matchOverview).map OvRec.code).Nodup) :
    pass1 ls = (ls.filterMap matchOverview).map (fun o => (o.code, ovPick o)) := by
  rw [pass1, foldl_pass1step_append ls [] (by simp) hnd, List.nil_append]

end StockScreener

namespace StockScreener

/-- C1 (amended): unconditionally, the parser's result is sorted ascending
by rank, holds at most 10 picks, and every returned pick has a nonzero
rank and a nonempty code.  Moreover, for a document whose overview lines
carry ranks `1..K` (`K ≤ 10`) with pairwise distinct codes and whose
detail headings only reference those codes, the parser returns exactly
`K` picks whose ranks are `1, 2, …, K` in order. -/
theorem top_picks_contract (md : String) :
    ((parseTopPicksFromMarkdown md).map Pick.rank).Sorted (· ≤ ·) ∧
    (parseTopPicksFromMarkdown md).length ≤ 10 ∧
    (∀ p ∈ parseTopPicksFromMarkdown md, p.rank ≠ 0 ∧ p.code ≠ "") ∧
    ∀ K : ℕ, K ≤ 10 →
      (((jsSplitLines md).filterMap matchOverview).map OvRec.rank).Perm
        (List.range' 1 K) →
      (((jsSplitLines md).filterMap matchOverview).map OvRec.code).Nodup →
      (∀ line ∈ jsSplitLines md, ∀ h ∈ matchHeading line,
        h.code ∈ ((jsSplitLines md).filterMap matchOverview).map OvRec.code) →
      (parseTopPicksFromMarkdown md).map Pick.rank = List.range' 1 K := by
  simp only [parseTopPicksFromMarkdown]
  set ls := jsSplitLines md with hls
  set m2 := pass2 (pass1 ls) ls with hm2
  set vals := objectValues m2 with hvals
  set srt := (vals.filter pickKeep).insertionSort rankLe with hsrt
  have hsorted : List.Sorted rankLe srt := List.sorted_insertionSort rankLe _
  have hwf := pass2_wf (pass1 ls) ls (pass1_wf ls).1 (pass1_wf ls).2
  refine ⟨?_, ?_, ?_, ?_⟩
  · rw [List.map_take]
    exact List.Pairwise.sublist (List.take_sublist 10 _)
      (List.pairwise_map.mpr hsorted)
  · exact List.length_take_le 10 srt
  · intro p hp
    have hp1 : p ∈ srt := (List.take_sublist 10 srt).subset hp
    have hp2 : p ∈ vals.filter pickKeep :=
      (List.perm_insertionSort rankLe _).subset hp1
    have hkeep := List.of_mem_filter hp2
    simp only [pickKeep, Bool.and_eq_true, decide_eq_true_eq] at hkeep
    exact hkeep
  · intro K hK10 hperm hnodup hhead
    have h1 : pass1 ls =
        (ls.filterMap matchOverview).map (fun o => (o.code, ovPick o)) :=
      pass1_eq_of_nodup ls hnodup
    have hkeys1 : (pass1 ls).map Prod.fst =
        (ls.filterMap matchOverview).map OvRec.code := by
      rw [h1, List.map_map]
      rfl
    have hproj1 : (pass1 ls).map (fun e => (e.1, e.2.rank)) =
        (ls.filterMap matchOverview).map (fun o => (o.code, o.rank)) := by
      rw [h1, List.map_map]
      rfl
    have h2 : m2.map (fun e => (e.1, e.2.rank)) =
        (pass1 ls).map (fun e => (e.1, e.2.rank)) := by
      rw [hm2, pass2]
      refine foldl_pass2step_proj ls (pass1 ls, none) ?_
      intro line hl h hh2
      show h.code ∈ (pass1 ls).map Prod.fst
      rw [hkeys1]
      exact hhead line hl h hh2
    have hranks : m2.map (fun e => e.2.rank) =
        (ls.filterMap matchOverview).map OvRec.rank := by
      have h3 := congrArg (List.map Prod.snd) (h2.trans hproj1)
      rwa [List.map_map, List.map_map] at h3
    have hvr : (vals.map Pick.rank).Perm (List.range' 1 K) := by
      have hp := (objectValues_perm m2).map Pick.rank
      rw [List.map_map] at hp
      have heq : m2.map (Pick.rank ∘ Prod.snd) =
          (ls.filterMap matchOverview).map OvRec.rank := hranks
      rw [heq] at hp
      exact hp.trans hperm
    have hkeys2 : m2.map Prod.fst =
        (ls.filterMap matchOverview).map OvRec.code := by
      have h4 := congrArg (List.map Prod.fst) (h2.trans hproj1)
      rw [List.map_map, List.map_map] at h4
      exact h4
    have hfil : vals.filter pickKeep = vals := by
      rw [List.filter_eq_self]
      intro p hpv
      have hpm : p ∈ m2.map Prod.snd := (objectValues_perm m2).subset hpv
      obtain ⟨e, hem, hesnd⟩ := List.mem_map.mp hpm
      have hcode : p.code = e.1 := by
        rw [← hesnd]
        exact hwf.2 e hem
      have hkey : e.1 ∈ m2.map Prod.fst := List.mem_map_of_mem Prod.fst hem
      rw [hkeys2] at hkey
      obtain ⟨o, hoO, hoc⟩ := List.mem_map.mp hkey
      obtain ⟨l0, hl0, hol⟩ := List.mem_filterMap.mp hoO
      have hcne : p.code ≠ "" := by
        rw [hcode, ← hoc]
        exact matchOverview_code_ne l0 o hol
      have hrmem : p.rank ∈ vals.map Pick.rank := List.mem_map_of_mem Pick.rank hpv
      have hrr := hvr.subset hrmem
      rw [List.mem_range'_1] at hrr
      simp only [pickKeep, Bool.and_eq_true, decide_eq_true_eq]
      exact ⟨by omega, hcne⟩
    have hsrteq : srt.map Pick.rank = List.range' 1 K := by
      refine @List.eq_of_perm_of_sorted ℕ (fun a b => a ≤ b) _ _ _ ?_ ?_ ?_
      · refine ((List.perm_insertionSort rankLe _).map Pick.rank).trans ?_
        rw [hfil]
        exact hvr
      · exact List.pairwise_map.mpr hsorted
      · exact List.Pairwise.imp Nat.le_of_lt (List.pairwise_lt_range' 1 K)
    rw [List.map_take, hsrteq]
    apply List.take_of_length_le
    rw [List.length_range']
    exact hK10

end StockScreener

namespace StockScreener

/-- Counterexample to C1 as stated: a document with two valid overview
lines whose ranks `1, 2` are unique — but which share the code `7203` —
yields a single pick, not two: the map is keyed by code, so the second
line overwrites the first. -/
theorem top_picks_K_counterexample :
    (((jsSplitLines "1. **7203** A｜Entry **1**｜Stop **1**｜TP **1**｜Score **1**\n2. **7203** B｜Entry **1**｜Stop **1**｜TP **1**｜Score **1**").filterMap
        matchOverview).map OvRec.rank = [1, 2]) ∧
    (2 : ℕ) ≤ 10 ∧
    (parseTopPicksFromMarkdown
        "1. **7203** A｜Entry **1**｜Stop **1**｜TP **1**｜Score **1**\n2. **7203** B｜Entry **1**｜Stop **1**｜TP **1**｜Score **1**").length = 1 := by
  refine ⟨by decide, by norm_num, by decide⟩

/-- Witness for `top_picks_contract`: two overview lines with distinct
codes, a detail heading for one of them, and a rationale bullet. -/
theorem top_picks_contract_witness :
    (2 : ℕ) ≤ 10 ∧
    (((jsSplitLines "1. **7203** A｜Entry **1**｜Stop **2**｜TP **3**｜Score **4**\n2. **9984** B｜Entry **1**｜Stop **2**｜TP **3**｜Score **4**\n### 1. 7203 — A\n- EMA up").filterMap
        matchOverview).map OvRec.rank).Perm (List.range' 1 2) ∧
    (((jsSplitLines "1. **7203** A｜Entry **1**｜Stop **2**｜TP **3**｜Score **4**\n2. **9984** B｜Entry **1**｜Stop **2**｜TP **3**｜Score **4**\n### 1. 7203 — A\n- EMA up").filterMap
        matchOverview).map OvRec.code).Nodup ∧
    (∀ line ∈ jsSplitLines "1. **7203** A｜Entry **1**｜Stop **2**｜TP **3**｜Score **4**\n2. **9984** B｜Entry **1**｜Stop **2**｜TP **3**｜Score **4**\n### 1. 7203 — A\n- EMA up",
      ∀ h ∈ matchHeading line,
        h.code ∈ ((jsSplitLines "1. **7203** A｜Entry **1**｜Stop **2**｜TP **3**｜Score **4**\n2. **9984** B｜Entry **1**｜Stop **2**｜TP **3**｜Score **4**\n### 1. 7203 — A\n- EMA up").filterMap
          matchOverview).map OvRec.code) ∧
    (parseTopPicksFromMarkdown
        "1. **7203** A｜Entry **1**｜Stop **2**｜TP **3**｜Score **4**\n2. **9984** B｜Entry **1**｜Stop **2**｜TP **3**｜Score **4**\n### 1. 7203 — A\n- EMA up").map
      Pick.rank = List.range' 1 2 := by
  have h1 : (((jsSplitLines "1. **7203** A｜Entry **1**｜Stop **2**｜TP **3**｜Score **4**\n2. **9984** B｜Entry **1**｜Stop **2**｜TP **3**｜Score **4**\n### 1. 7203 — A\n- EMA up").filterMap
      matchOverview).map OvRec.rank).Perm (List.range' 1 2) := by decide
  have h2 : (((jsSplitLines "1. **7203** A｜Entry **1**｜Stop **2**｜TP **3**｜Score **4**\n2. **9984** B｜Entry **1**｜Stop **2**｜TP **3**｜Score **4**\n### 1. 7203 — A\n- EMA up").filterMap
      matchOverview).map OvRec.code).Nodup := by decide
  have h3 : ∀ line ∈ jsSplitLines "1. **7203** A｜Entry **1**｜Stop **2**｜TP **3**｜Score **4**\n2. **9984** B｜Entry **1**｜Stop **2**｜TP **3**｜Score **4**\n### 1. 7203 — A\n- EMA up",
      ∀ h ∈ matchHeading line,
        h.code ∈ ((jsSplitLines "1. **7203** A｜Entry **1**｜Stop **2**｜TP **3**｜Score **4**\n2. **9984** B｜Entry **1**｜Stop **2**｜TP **3**｜Score **4**\n### 1. 7203 — A\n- EMA up").filterMap
          matchOverview).map OvRec.code := by decide
  exact ⟨by norm_num, h1, h2, h3,
    (top_picks_contract
      "1. **7203** A｜Entry **1**｜Stop **2**｜TP **3**｜Score **4**\n2. **9984** B｜Entry **1**｜Stop **2**｜TP **3**｜Score **4**\n### 1. 7203 — A\n- EMA up").2.2.2
      2 (by norm_num) h1 h2 h3⟩

end StockScreener
